import Mathlib

/-!
Shallow embedding of the grammar-preparation front end of the parser
generator (source: `src/cli/generate/src/prepare_grammar/mod.rs`).

The embedding covers the input-grammar data model, the precedence validator
(`validate_precedences` with its undeclared-precedence walk and its
conflicting-ordering pair check), and the `prepare_grammar` orchestration.
The seven pipeline stages other than the validator live in sibling modules
that are not part of the sources; their signatures are modelled from the
spec and `prepare_grammar` is stated over an arbitrary implementation of
those stages.
-/

deriving instance DecidableEq for Except

namespace TreeSitter

/-- Modelled from the spec: `PrecedenceEntry` (declared in `grammars.rs`,
which is not among the sources) is the element type of a declared
precedence-ordering list — a named or a numeric precedence. -/
inductive PrecedenceEntry where
  | name : String → PrecedenceEntry
  | number : Int → PrecedenceEntry
deriving DecidableEq

/-- Modelled from the spec: the display form of a precedence entry — names
are quoted as-is, numeric entries are rendered as their numeral. -/
def PrecedenceEntry.display : PrecedenceEntry → String
  | .name n => "\x27" ++ n ++ "\x27"
  | .number n => toString n

/-- Comparison of characters by code point. -/
def charCmp (a b : Char) : Ordering :=
  if a.val.toNat < b.val.toNat then .lt
  else if a.val.toNat = b.val.toNat then .eq
  else .gt

/-- Lexicographic comparison of character lists. -/
def strCmpAux : List Char → List Char → Ordering
  | [], [] => .eq
  | [], _ :: _ => .lt
  | _ :: _, [] => .gt
  | a :: as, b :: bs =>
    match charCmp a b with
    | .eq => strCmpAux as bs
    | o => o

/-- Lexicographic comparison of strings by code point. -/
def strCmp (a b : String) : Ordering :=
  strCmpAux a.data b.data

/-- Modelled from the spec: the total comparison on precedence entries used
to canonicalize unordered pairs.  The spec leaves the concrete total order
open (any consistent total order suffices); here names compare
lexicographically, numbers numerically, and names sort before numbers. -/
def entryCmp : PrecedenceEntry → PrecedenceEntry → Ordering
  | .name a, .name b => strCmp a b
  | .name _, .number _ => .lt
  | .number _, .name _ => .gt
  | .number a, .number b =>
    if a < b then .lt else if a = b then .eq else .gt

/-- Modelled from the spec: a rule's precedence annotation — absent,
numeric, or a named reference into the declared precedence vocabulary. -/
inductive Precedence where
  | none : Precedence
  | integer : Int → Precedence
  | name : String → Precedence

/-- Modelled from the spec: associativity annotation of a metadata node. -/
inductive Associativity where
  | left : Associativity
  | right : Associativity

/-- Modelled from the spec: the annotation payload of a metadata wrapper —
precedence, associativity, dynamic precedence, field name and alias. -/
structure MetadataParams where
  precedence : Precedence := .none
  associativity : Option Associativity := Option.none
  dynamic_precedence : Int := 0
  field_name : Option String := Option.none
  alias_name : Option String := Option.none

/-- Modelled from the spec: the kind of a resolved symbol. -/
inductive SymbolType where
  | external : SymbolType
  | endOfInput : SymbolType
  | terminal : SymbolType
  | nonTerminal : SymbolType
deriving DecidableEq

/-- Modelled from the spec: a resolved symbol — a kind plus a dense
zero-based index into the corresponding table. -/
structure Symbol where
  kind : SymbolType
  index : Nat
deriving DecidableEq

/-- Modelled from the spec: the recursive rule tree — references, literals,
blank, sequences, choices, repetitions, and a metadata wrapper carrying
precedence/associativity annotations around an inner rule. -/
inductive Rule where
  | blank : Rule
  | string : String → Rule
  | pattern : String → Rule
  | namedSymbol : String → Rule
  | symbol : Symbol → Rule
  | choice : List Rule → Rule
  | metadata : MetadataParams → Rule → Rule
  | repeat : Rule → Rule
  | seq : List Rule → Rule

/-- Modelled from the spec: `Rule::prec_left` builds a metadata wrapper
with the given precedence and left associativity. -/
def Rule.prec_left (value : Precedence) (rule : Rule) : Rule :=
  .metadata { precedence := value, associativity := some .left } rule

/-- Modelled from the spec: `Rule::prec` builds a metadata wrapper with the
given precedence. -/
def Rule.prec (value : Precedence) (rule : Rule) : Rule :=
  .metadata { precedence := value } rule

/-- Modelled from the spec: the kind of a grammar variable. -/
inductive VariableType where
  | hidden : VariableType
  | auxiliary : VariableType
  | anonymous : VariableType
  | named : VariableType
deriving DecidableEq

/-- Modelled from the spec: a named grammar rule — name, kind and rule
tree. -/
structure Variable where
  name : String
  kind : VariableType
  rule : Rule

/-- Modelled from the spec: a reserved-word context set. -/
structure ReservedWordContext (T : Type) where
  name : String := ""
  reserved_words : List T := []

/-- Modelled from the spec: the fully parsed input grammar handed to
`prepare_grammar` — variables with their rule trees, declared external
tokens, precedence-ordering lists, expected-conflict lists, supertype
symbol names, optional word token and reserved-word contexts. -/
structure InputGrammar where
  name : String := ""
  «variables» : List Variable := []
  extra_symbols : List Rule := []
  expected_conflicts : List (List String) := []
  precedence_orderings : List (List PrecedenceEntry) := []
  external_tokens : List Rule := []
  variables_to_inline : List String := []
  supertype_symbols : List String := []
  word_token : Option String := Option.none
  reserved_words : List (ReservedWordContext Rule) := []

/-- Modelled from the spec: an external token with its declared
properties. -/
structure ExternalToken where
  name : String := ""
  kind : VariableType := .named
  corresponding_internal_token : Option Symbol := Option.none

/-- The generic intermediate grammar shape shared by the stages before and
after token extraction (`IntermediateGrammar<T, U>` in the source). -/
structure IntermediateGrammar (T U : Type) where
  «variables» : List Variable := []
  extra_symbols : List T := []
  expected_conflicts : List (List Symbol) := []
  precedence_orderings : List (List PrecedenceEntry) := []
  external_tokens : List U := []
  variables_to_inline : List Symbol := []
  supertype_symbols : List Symbol := []
  word_token : Option Symbol := Option.none
  reserved_word_sets : List (ReservedWordContext T) := []

/-- `InternedGrammar` from the source: the intermediate grammar right after
symbol interning. -/
abbrev InternedGrammar := IntermediateGrammar Rule Variable

/-- `ExtractedSyntaxGrammar` from the source: the intermediate grammar
right after token extraction. -/
abbrev ExtractedSyntaxGrammar := IntermediateGrammar Symbol ExternalToken

/-- `ExtractedLexicalGrammar` from the source. -/
structure ExtractedLexicalGrammar where
  «variables» : List Variable := []
  separators : List Rule := []

/-- Modelled from the spec: one step of a flattened production. -/
structure ProductionStep where
  symbol : Symbol
  precedence : Precedence := .none
  associativity : Option Associativity := Option.none
  field_name : Option String := Option.none
  alias_name : Option String := Option.none

/-- Modelled from the spec: a flattened production — an ordered list of
steps with a dynamic precedence. -/
structure Production where
  steps : List ProductionStep := []
  dynamic_precedence : Int := 0

/-- Modelled from the spec: a syntactic variable after flattening. -/
structure SyntaxVariable where
  name : String := ""
  kind : VariableType := .named
  productions : List Production := []

/-- Modelled from the spec: the final syntax grammar of flat productions
over resolved symbols. -/
structure SyntaxGrammar where
  «variables» : List SyntaxVariable := []
  extra_symbols : List Symbol := []
  expected_conflicts : List (List Symbol) := []
  external_tokens : List ExternalToken := []
  supertype_symbols : List Symbol := []
  variables_to_inline : List Symbol := []
  word_token : Option Symbol := Option.none

/-- Modelled from the spec: a lexical variable of the final lexical
grammar. -/
structure LexicalVariable where
  name : String := ""
  kind : VariableType := .named
  rule : Rule := .blank

/-- Modelled from the spec: the final lexical grammar — expanded token
definitions plus separator rules. -/
structure LexicalGrammar where
  «variables» : List LexicalVariable := []
  separators : List Rule := []

/-- Modelled from the spec: the map from (production identity, position)
to the alternative productions produced by inlining. -/
structure InlinedProductionMap where
  productions : List Production := []
  production_map : List ((Nat × Nat) × List Nat) := []

/-- Modelled from the spec: the map from a symbol to its default display
alias. -/
abbrev AliasMap := List (Symbol × String)

/-- `UndeclaredPrecedenceError` from the source. -/
structure UndeclaredPrecedenceError where
  precedence : String
  rule : String
deriving DecidableEq

/-- `ConflictingPrecedenceOrderingError` from the source. -/
structure ConflictingPrecedenceOrderingError where
  precedence_1 : String
  precedence_2 : String
deriving DecidableEq

/-- `ValidatePrecedenceError` from the source: either an undeclared
precedence or a conflicting precedence ordering. -/
inductive ValidatePrecedenceError where
  | undeclared : UndeclaredPrecedenceError → ValidatePrecedenceError
  | ordering : ConflictingPrecedenceOrderingError → ValidatePrecedenceError
deriving DecidableEq

/-- Display implementation of `UndeclaredPrecedenceError` from the source:
`Undeclared precedence '{}' in rule '{}'`. -/
def UndeclaredPrecedenceError.display (e : UndeclaredPrecedenceError) : String :=
  "Undeclared precedence \x27" ++ e.precedence ++ "\x27 in rule \x27" ++ e.rule ++ "\x27"

/-- Display implementation of `ConflictingPrecedenceOrderingError` from the
source: `Conflicting orderings for precedences {} and {}` (the two fields
already carry the quoted display strings of the entries). -/
def ConflictingPrecedenceOrderingError.display
    (e : ConflictingPrecedenceOrderingError) : String :=
  "Conflicting orderings for precedences " ++ e.precedence_1 ++ " and " ++ e.precedence_2

/-- The transparent display of `ValidatePrecedenceError`: it delegates to
the wrapped error. -/
def ValidatePrecedenceError.display : ValidatePrecedenceError → String
  | .undeclared e => e.display
  | .ordering e => e.display

/-- Modelled from the spec: the error of the symbol interner
(`intern_symbols.rs` is not among the sources) — an unknown identifier. -/
structure InternSymbolsError where
  name : String := ""
deriving DecidableEq

/-- Modelled from the spec: the error of the token extractor
(`extract_tokens.rs` is not among the sources). -/
structure ExtractTokensError where
  symbol_name : String := ""
deriving DecidableEq

/-- Modelled from the spec: the error of the grammar flattener
(`flatten_grammar.rs` is not among the sources). -/
structure FlattenGrammarError where
  rule_name : String := ""
deriving DecidableEq

/-- Modelled from the spec: the error of the token expander
(`expand_tokens.rs` is not among the sources). -/
structure ExpandTokensError where
  rule_name : String := ""
deriving DecidableEq

/-- Modelled from the spec: the error of the inline processor
(`process_inlines.rs` is not among the sources). -/
structure ProcessInlinesError where
  variable_name : String := ""
deriving DecidableEq

/-- `PrepareGrammarError` from the source: the tagged union of the six
stage-specific error kinds. -/
inductive PrepareGrammarError where
  | validatePrecedences : ValidatePrecedenceError → PrepareGrammarError
  | internSymbols : InternSymbolsError → PrepareGrammarError
  | extractTokens : ExtractTokensError → PrepareGrammarError
  | flattenGrammar : FlattenGrammarError → PrepareGrammarError
  | expandTokens : ExpandTokensError → PrepareGrammarError
  | processInlines : ProcessInlinesError → PrepareGrammarError
deriving DecidableEq

/-- The association list modelling the `pairs` hash map of
`validate_precedences`: canonical entry pairs mapped to the first recorded
direction. -/
abbrev PairMap := List ((PrecedenceEntry × PrecedenceEntry) × Ordering)

/-- Lookup in the pair map (models `HashMap` lookup by key). -/
def lookupPair : PairMap → PrecedenceEntry × PrecedenceEntry → Option Ordering
  | [], _ => Option.none
  | (k, o) :: rest, key => if k = key then some o else lookupPair rest key

/-- The canonical key of an unordered entry pair, as computed by the
`mem::swap` canonicalization in `validate_precedences`: the two entries in
comparison order. -/
def canonKey (a b : PrecedenceEntry) : PrecedenceEntry × PrecedenceEntry :=
  if entryCmp a b = .gt then (b, a) else (a, b)

/-- The direction recorded for an occurrence of `a` before `b`, as computed
in `validate_precedences`: `Greater` when the pair was already in
comparison order, `Less` when it was swapped. -/
def canonDir (a b : PrecedenceEntry) : Ordering :=
  if entryCmp a b = .gt then .lt else .gt

/-- Inner loop of the conflicting-ordering check: compare `entry1` against
each later entry of the same list, skipping entries equal to the current
`entry1`, recording the direction of new pairs in the map and failing when
a pair was already recorded with the opposite direction.  `entry1` is the
`mut` binding of the source's outer loop: the `mem::swap` canonicalization
overwrites it with the smaller entry, and that value persists for the rest
of the inner loop, so after a swap the later comparisons of the same outer
iteration use the running minimum `(canonKey entry1 entry2).1`, not the
original list element. -/
def checkEntryAgainst :
    PrecedenceEntry → List PrecedenceEntry → PairMap →
    Except ConflictingPrecedenceOrderingError PairMap
  | _, [], m => .ok m
  | entry1, entry2 :: rest, m =>
    if entry2 = entry1 then checkEntryAgainst entry1 rest m
    else
      match lookupPair m (canonKey entry1 entry2) with
      | Option.none =>
        checkEntryAgainst (canonKey entry1 entry2).1 rest
          ((canonKey entry1 entry2, canonDir entry1 entry2) :: m)
      | some o =>
        if o = canonDir entry1 entry2 then
          checkEntryAgainst (canonKey entry1 entry2).1 rest m
        else
          .error
            { precedence_1 := (canonKey entry1 entry2).1.display,
              precedence_2 := (canonKey entry1 entry2).2.display }

/-- Outer loop of the conflicting-ordering check over one ordering list:
for each position, compare its entry against all later entries. -/
def checkPairsOfList :
    List PrecedenceEntry → PairMap →
    Except ConflictingPrecedenceOrderingError PairMap
  | [], m => .ok m
  | entry1 :: rest, m =>
    match checkEntryAgainst entry1 rest m with
    | .error e => .error e
    | .ok m2 => checkPairsOfList rest m2

/-- The conflicting-ordering check over all ordering lists, threading the
pair map through. -/
def checkOrderings :
    List (List PrecedenceEntry) → PairMap →
    Except ConflictingPrecedenceOrderingError PairMap
  | [], m => .ok m
  | l :: ls, m =>
    match checkPairsOfList l m with
    | .error e => .error e
    | .ok m2 => checkOrderings ls m2

/-- The set of precedence names declared in any ordering list (the
`precedence_names` hash set of `validate_precedences`). -/
def precedenceNames (grammar : InputGrammar) : List String :=
  (grammar.precedence_orderings.map (fun l =>
    l.filterMap (fun p =>
      match p with
      | .name n => some n
      | _ => Option.none))).flatten

mutual

/-- The inner `validate` function of `validate_precedences`: walk a rule
tree and fail on the first metadata node whose named precedence is not
among the declared names. -/
def validate (rule_name : String) (rule : Rule) (names : List String) :
    Except ValidatePrecedenceError Unit :=
  match rule with
  | .repeat r => validate rule_name r names
  | .seq elements => validateElements rule_name elements names
  | .choice elements => validateElements rule_name elements names
  | .metadata params r =>
    match params.precedence with
    | .name n =>
      if names.contains n then validate rule_name r names
      else .error (.undeclared { precedence := n, rule := rule_name })
    | _ => validate rule_name r names
  | _ => .ok ()

/-- Left-to-right short-circuiting walk over the children of a sequence or
choice node (the `try_for_each` in the source). -/
def validateElements (rule_name : String) (elements : List Rule)
    (names : List String) : Except ValidatePrecedenceError Unit :=
  match elements with
  | [] => .ok ()
  | e :: rest =>
    match validate rule_name e names with
    | .error err => .error err
    | .ok _ => validateElements rule_name rest names

end

/-- The undeclared-precedence check over all variables in declaration
order (the final loop of `validate_precedences`). -/
def validateVariables (vars : List Variable) (names : List String) :
    Except ValidatePrecedenceError Unit :=
  match vars with
  | [] => .ok ()
  | v :: rest =>
    match validate v.name v.rule names with
    | .error e => .error e
    | .ok _ => validateVariables rest names

/-- `validate_precedences` from the source: first the conflicting-ordering
check over all ordering lists, then the undeclared-precedence check over
all variables. -/
def validate_precedences (grammar : InputGrammar) :
    Except ValidatePrecedenceError Unit :=
  match checkOrderings grammar.precedence_orderings [] with
  | .error e => .error (.ordering e)
  | .ok _ => validateVariables grammar.variables (precedenceNames grammar)

/-- Modelled from the spec: the seven pipeline stages other than the
precedence validator live in sibling modules that are not among the
sources; only their signatures are fixed by the orchestration.  The two
stages the spec declares infallible (`expand_repeats`,
`extract_default_aliases`) are plain functions; the five fallible ones
return a result.  `extract_default_aliases` mutates the syntax grammar in
place and returns the alias map, modelled here as returning both. -/
structure StageImpls where
  intern_symbols : InputGrammar → Except InternSymbolsError InternedGrammar
  extract_tokens : InternedGrammar →
    Except ExtractTokensError (ExtractedSyntaxGrammar × ExtractedLexicalGrammar)
  expand_repeats : ExtractedSyntaxGrammar → ExtractedSyntaxGrammar
  flatten_grammar : ExtractedSyntaxGrammar → Except FlattenGrammarError SyntaxGrammar
  expand_tokens : ExtractedLexicalGrammar → Except ExpandTokensError LexicalGrammar
  extract_default_aliases : SyntaxGrammar → LexicalGrammar → SyntaxGrammar × AliasMap
  process_inlines : SyntaxGrammar → LexicalGrammar →
    Except ProcessInlinesError InlinedProductionMap

/-- `prepare_grammar` from the source: validate precedences, then run the
stages in their fixed order, short-circuiting on the first error and
returning the final 4-tuple on success. -/
def prepare_grammar (impl : StageImpls) (input_grammar : InputGrammar) :
    Except PrepareGrammarError
      (SyntaxGrammar × LexicalGrammar × InlinedProductionMap × AliasMap) :=
  match validate_precedences input_grammar with
  | .error e => .error (.validatePrecedences e)
  | .ok _ =>
    match impl.intern_symbols input_grammar with
    | .error e => .error (.internSymbols e)
    | .ok interned_grammar =>
      match impl.extract_tokens interned_grammar with
      | .error e => .error (.extractTokens e)
      | .ok (syntax_grammar0, lexical_grammar0) =>
        match impl.flatten_grammar (impl.expand_repeats syntax_grammar0) with
        | .error e => .error (.flattenGrammar e)
        | .ok flat_syntax_grammar =>
          match impl.expand_tokens lexical_grammar0 with
          | .error e => .error (.expandTokens e)
          | .ok lexical_grammar =>
            match impl.extract_default_aliases flat_syntax_grammar lexical_grammar with
            | (syntax_grammar, default_aliases) =>
              match impl.process_inlines syntax_grammar lexical_grammar with
              | .error e => .error (.processInlines e)
              | .ok inlines =>
                .ok (syntax_grammar, lexical_grammar, inlines, default_aliases)

/-- A trivial implementation of the seven modelled stages in which every
fallible stage succeeds with an empty result; used to instantiate theorems
about the orchestration. -/
def trivialStages : StageImpls where
  intern_symbols _ := .ok {}
  extract_tokens _ := .ok ({}, {})
  expand_repeats g := g
  flatten_grammar _ := .ok {}
  expand_tokens _ := .ok {}
  extract_default_aliases g _ := (g, [])
  process_inlines _ _ := .ok {}

mutual

/-- Specification-side definition: the named precedences used in a rule
tree, listed in pre-order — a metadata node's own precedence before its
wrapped subtree, sequence and choice children left to right, descending
through repeats. -/
def usedPrecedences : Rule → List String
  | .repeat r => usedPrecedences r
  | .seq elements => usedPrecedencesList elements
  | .choice elements => usedPrecedencesList elements
  | .metadata params r =>
    (match params.precedence with
     | .name n => [n]
     | _ => []) ++ usedPrecedences r
  | _ => []

/-- Specification-side definition: the named precedences used by a list of
rules, left to right. -/
def usedPrecedencesList : List Rule → List String
  | [] => []
  | e :: rest => usedPrecedences e ++ usedPrecedencesList rest

end

/-- Specification-side definition: the undeclared named-precedence
occurrences of a grammar as (precedence, rule name) pairs, listed in
variable-declaration order and, within each variable, in pre-order of its
rule tree. -/
def undeclaredOccurrences (g : InputGrammar) : List (String × String) :=
  (g.variables.map (fun v =>
    ((usedPrecedences v.rule).filter
        (fun n => !((precedenceNames g).contains n))).map
      (fun n => (n, v.name)))).flatten

/-- Entry `a` appears strictly before entry `b` in some precedence-ordering
list of the grammar. -/
def ordersBeforeIn (g : InputGrammar) (a b : PrecedenceEntry) : Prop :=
  ∃ l ∈ g.precedence_orderings, List.Sublist [a, b] l

/-- Invariant of the pair map maintained by the conflicting-ordering check:
every recorded key is a distinct pair in comparison order whose recorded
direction is witnessed by the relation `R`. -/
def justified (R : PrecedenceEntry → PrecedenceEntry → Prop) (m : PairMap) : Prop :=
  ∀ lo hi o, lookupPair m (lo, hi) = some o →
    lo ≠ hi ∧ ((o = .gt ∧ R lo hi) ∨ (o = .lt ∧ R hi lo))

/-- All ordered pairs (earlier entry, later entry) of a list. -/
def pairsOf : List PrecedenceEntry → List (PrecedenceEntry × PrecedenceEntry)
  | [] => []
  | x :: rest => rest.map (fun y => (x, y)) ++ pairsOf rest

/-- Decidable check for the existence of a pair of entries ordered both
ways by the grammar's ordering lists. -/
def grammarHasConflict (g : InputGrammar) : Bool :=
  g.precedence_orderings.any (fun l1 =>
    g.precedence_orderings.any (fun l2 =>
      (pairsOf l1).any (fun p =>
        decide (p.1 ≠ p.2) && (pairsOf l2).contains (p.2, p.1))))

/-- The grammar of the source test
`test_validate_precedences_with_undeclared_precedence`: orderings
`[[a, b], [b, c, d]]`, rule `v1` using precedences `b` and `c`, rule `v2`
using `omg` (undeclared) and `c`. -/
def undeclaredTestGrammar : InputGrammar :=
  { precedence_orderings := [
      [.name "a", .name "b"],
      [.name "b", .name "c", .name "d"]],
    «variables» := [
      { name := "v1", kind := .named,
        rule := .seq [
          Rule.prec_left (.name "b") (.string "w"),
          Rule.prec (.name "c") (.string "x")] },
      { name := "v2", kind := .named,
        rule := .repeat (.choice [
          Rule.prec_left (.name "omg") (.string "y"),
          Rule.prec (.name "c") (.string "z")]) }] }

/-- The grammar of the source test
`test_validate_precedences_with_conflicting_order`: orderings
`[[a, b], [b, c, a]]`. -/
def conflictingTestGrammar : InputGrammar :=
  { precedence_orderings := [
      [.name "a", .name "b"],
      [.name "b", .name "c", .name "a"]],
    «variables» := [
      { name := "v1", kind := .named,
        rule := .seq [
          Rule.prec_left (.name "b") (.string "w"),
          Rule.prec (.name "c") (.string "x")] },
      { name := "v2", kind := .named,
        rule := .repeat (.choice [
          Rule.prec_left (.name "a") (.string "y"),
          Rule.prec (.name "c") (.string "z")]) }] }

/-- A grammar whose lists order the pair `{b, c}` both ways (`c` before `b`
in the first list, `b` before `c` in the second) and which the validator
nevertheless accepts: in the first list the `mem::swap` at the first
comparison turns the running `entry1` from `c` into `a`, so the occurrence
of `c` before `b` is never recorded. -/
def swapPersistenceGrammar : InputGrammar :=
  { precedence_orderings := [
      [.name "c", .name "a", .name "b"],
      [.name "b", .name "c"]] }

/-- The swap-persistence grammar extended with a rule that uses the
undeclared precedence `omg`. -/
def swapPersistenceUndeclaredGrammar : InputGrammar :=
  { precedence_orderings := [
      [.name "c", .name "a", .name "b"],
      [.name "b", .name "c"]],
    «variables» := [
      { name := "v1", kind := .named,
        rule := Rule.prec (.name "omg") (.string "w") }] }

/-- A single declaration list that orders `{b, c}` and `{a, c}` both ways
yet is accepted: the running minimum records only the keys
`(b, c)`, `(a, b)` and `(a, c)`, each in one consistent direction. -/
def singleListBothWaysGrammar : InputGrammar :=
  { precedence_orderings := [[.name "c", .name "b", .name "a", .name "c"]] }

/-- A grammar with a single conflicting pair spread over two lists. -/
def conflictPairGrammar : InputGrammar :=
  { precedence_orderings := [
      [.name "a", .name "b"],
      [.name "b", .name "a"]] }

/-- A grammar in which one single list orders the pair `{a, b}` both
ways. -/
def singleListConflictGrammar : InputGrammar :=
  { precedence_orderings := [[.name "a", .name "b", .name "a"]] }

/-- A grammar with a conflicting pair and an undeclared precedence in a
rule. -/
def conflictAndUndeclaredGrammar : InputGrammar :=
  { precedence_orderings := [
      [.name "a", .name "b"],
      [.name "b", .name "a"]],
    «variables» := [
      { name := "v1", kind := .named,
        rule := Rule.prec (.name "omg") (.string "w") }] }

/-- A consistent grammar: every used precedence is declared and no pair of
entries is ordered both ways. -/
def consistentGrammar : InputGrammar :=
  { precedence_orderings := [[.name "a", .name "b"]],
    «variables» := [
      { name := "v1", kind := .named,
        rule := Rule.prec (.name "a") (.string "w") }] }

/-- A grammar in which the pair `{a, b}` co-occurs in several lists, always
in the same order, and one list also contains an equal-entry pair. -/
def repeatedAgreementGrammar : InputGrammar :=
  { precedence_orderings := [
      [.name "a", .name "b"],
      [.name "a", .name "b"],
      [.name "a", .name "a", .name "b"]] }

/-- The empty grammar. -/
def emptyGrammar : InputGrammar := {}

instance (g : InputGrammar) (a b : PrecedenceEntry) :
    Decidable (ordersBeforeIn g a b) :=
  inferInstanceAs (Decidable (∃ l ∈ g.precedence_orderings, List.Sublist [a, b] l))

theorem charCmp_eq_iff (a b : Char) : charCmp a b = .eq ↔ a = b := by
  unfold charCmp
  split_ifs with h1 h2
  · exact ⟨fun h => absurd h (by decide),
      fun h => absurd h1 (by rw [h]; exact Nat.lt_irrefl _)⟩
  · exact ⟨fun _ => Char.ext (UInt32.toNat.inj h2), fun _ => rfl⟩
  · exact ⟨fun h => absurd h (by decide), fun h => absurd (by rw [h]) h2⟩

theorem charCmp_gt_iff (a b : Char) : charCmp a b = .gt ↔ charCmp b a = .lt := by
  unfold charCmp
  rcases Nat.lt_trichotomy a.val.toNat b.val.toNat with h | h | h
  · rw [if_pos h, if_neg (by omega), if_neg (by omega)]
    decide
  · rw [if_neg (by omega), if_pos h, if_neg (by omega), if_pos (by omega)]
    decide
  · rw [if_neg (by omega), if_neg (by omega), if_pos h]
    decide

theorem strCmpAux_eq_iff : ∀ (xs ys : List Char), strCmpAux xs ys = .eq ↔ xs = ys
  | [], [] => by simp [strCmpAux]
  | [], _ :: _ => by simp [strCmpAux]
  | _ :: _, [] => by simp [strCmpAux]
  | x :: xs, y :: ys => by
    unfold strCmpAux
    cases hc : charCmp x y with
    | eq =>
      have hxy : x = y := (charCmp_eq_iff x y).mp hc
      simp [hxy, strCmpAux_eq_iff xs ys]
    | lt =>
      simp only [List.cons.injEq]
      exact ⟨fun h => absurd h (by decide),
        fun h => absurd ((charCmp_eq_iff x y).mpr h.1) (by rw [hc]; decide)⟩
    | gt =>
      simp only [List.cons.injEq]
      exact ⟨fun h => absurd h (by decide),
        fun h => absurd ((charCmp_eq_iff x y).mpr h.1) (by rw [hc]; decide)⟩

theorem strCmpAux_gt_iff : ∀ (xs ys : List Char), strCmpAux xs ys = .gt ↔ strCmpAux ys xs = .lt
  | [], [] => by simp [strCmpAux]
  | [], _ :: _ => by simp [strCmpAux]
  | _ :: _, [] => by simp [strCmpAux]
  | x :: xs, y :: ys => by
    unfold strCmpAux
    cases hc : charCmp x y with
    | eq =>
      have hyx : charCmp y x = .eq :=
        (charCmp_eq_iff y x).mpr ((charCmp_eq_iff x y).mp hc).symm
      rw [hyx]
      exact strCmpAux_gt_iff xs ys
    | lt =>
      have hyx : charCmp y x = .gt := (charCmp_gt_iff y x).mpr hc
      rw [hyx]
      simp
    | gt =>
      have hyx : charCmp y x = .lt := (charCmp_gt_iff x y).mp hc
      rw [hyx]
      simp

theorem strCmp_eq_iff (a b : String) : strCmp a b = .eq ↔ a = b := by
  unfold strCmp
  rw [strCmpAux_eq_iff]
  exact ⟨String.ext, fun h => congrArg String.data h⟩

theorem strCmp_gt_iff (a b : String) : strCmp a b = .gt ↔ strCmp b a = .lt :=
  strCmpAux_gt_iff a.data b.data

theorem entryCmp_eq_iff (a b : PrecedenceEntry) : entryCmp a b = .eq ↔ a = b := by
  cases a with
  | name x =>
    cases b with
    | name y => simpa [entryCmp] using strCmp_eq_iff x y
    | number y => simp [entryCmp]
  | number x =>
    cases b with
    | name y => simp [entryCmp]
    | number y =>
      simp only [entryCmp, PrecedenceEntry.number.injEq]
      split_ifs with h1 h2
      · exact ⟨fun h => absurd h (by decide), fun h => absurd h1 (by rw [h]; exact Int.lt_irrefl _)⟩
      · exact ⟨fun _ => h2, fun _ => rfl⟩
      · exact ⟨fun h => absurd h (by decide), fun h => absurd h h2⟩

theorem entryCmp_gt_iff (a b : PrecedenceEntry) : entryCmp a b = .gt ↔ entryCmp b a = .lt := by
  cases a with
  | name x =>
    cases b with
    | name y => simpa [entryCmp] using strCmp_gt_iff x y
    | number y => simp [entryCmp]
  | number x =>
    cases b with
    | name y => simp [entryCmp]
    | number y =>
      simp only [entryCmp]
      rcases Int.lt_trichotomy x y with h | h | h
      · rw [if_pos h, if_neg (by omega), if_neg (by omega)]
        decide
      · rw [if_neg (by omega), if_pos h, if_neg (by omega), if_pos (by omega)]
        decide
      · rw [if_neg (by omega), if_neg (by omega), if_pos h]
        decide

theorem entryCmp_lt_or_gt {a b : PrecedenceEntry} (h : a ≠ b) :
    entryCmp a b = .lt ∨ entryCmp a b = .gt := by
  cases hc : entryCmp a b with
  | lt => exact Or.inl rfl
  | eq => exact absurd ((entryCmp_eq_iff a b).mp hc) h
  | gt => exact Or.inr rfl

theorem canonKey_symm (a b : PrecedenceEntry) (h : a ≠ b) :
    canonKey b a = canonKey a b := by
  unfold canonKey
  rcases entryCmp_lt_or_gt h with hlt | hgt
  · rw [if_pos ((entryCmp_gt_iff b a).mpr hlt), if_neg (by simp [hlt])]
  · rw [if_neg (by simp [(entryCmp_gt_iff a b).mp hgt]), if_pos hgt]

theorem canonDir_ne (a b : PrecedenceEntry) (h : a ≠ b) :
    canonDir a b ≠ canonDir b a := by
  unfold canonDir
  rcases entryCmp_lt_or_gt h with hlt | hgt
  · rw [if_neg (by simp [hlt]), if_pos ((entryCmp_gt_iff b a).mpr hlt)]
    simp
  · rw [if_pos hgt, if_neg (by simp [(entryCmp_gt_iff a b).mp hgt])]
    simp

theorem canonKey_cmp (a b : PrecedenceEntry) (h : a ≠ b) :
    entryCmp (canonKey a b).1 (canonKey a b).2 = .lt := by
  unfold canonKey
  rcases entryCmp_lt_or_gt h with hlt | hgt
  · rw [if_neg (by simp [hlt])]
    exact hlt
  · rw [if_pos hgt]
    exact (entryCmp_gt_iff a b).mp hgt

theorem justified_nil (R : PrecedenceEntry → PrecedenceEntry → Prop) :
    justified R [] := by
  intro lo hi o h
  simp [lookupPair] at h

theorem justified_insert (R : PrecedenceEntry → PrecedenceEntry → Prop) (m : PairMap)
    (a b : PrecedenceEntry) (h : a ≠ b) (hR : R a b) (hm : justified R m) :
    justified R ((canonKey a b, canonDir a b) :: m) := by
  intro lo hi o hlook
  simp only [lookupPair] at hlook
  split at hlook
  · next hk =>
    have ho : o = canonDir a b := (Option.some.inj hlook).symm
    rcases entryCmp_lt_or_gt h with hlt | hgt
    · have hkey : canonKey a b = (a, b) := by unfold canonKey; rw [if_neg (by simp [hlt])]
      have hdir : canonDir a b = .gt := by unfold canonDir; rw [if_neg (by simp [hlt])]
      rw [hkey] at hk
      obtain ⟨h1, h2⟩ := Prod.mk.injEq .. |>.mp hk
      subst h1; subst h2
      exact ⟨h, Or.inl ⟨ho.trans hdir, hR⟩⟩
    · have hkey : canonKey a b = (b, a) := by unfold canonKey; rw [if_pos hgt]
      have hdir : canonDir a b = .lt := by unfold canonDir; rw [if_pos hgt]
      rw [hkey] at hk
      obtain ⟨h1, h2⟩ := Prod.mk.injEq .. |>.mp hk
      subst h1; subst h2
      exact ⟨h.symm, Or.inr ⟨ho.trans hdir, hR⟩⟩
  · exact hm lo hi o hlook

theorem checkEntryAgainst_spec (R : PrecedenceEntry → PrecedenceEntry → Prop) :
    ∀ (rest : List PrecedenceEntry) (entry1 : PrecedenceEntry) (m : PairMap),
    justified R m →
    (∀ e2 ∈ rest, e2 ≠ entry1 → R entry1 e2) →
    rest.Pairwise (fun a b => a ≠ b → R a b) →
    (∃ m2, checkEntryAgainst entry1 rest m = .ok m2 ∧ justified R m2) ∨
    (∃ p q, checkEntryAgainst entry1 rest m = .error
        { precedence_1 := p.display, precedence_2 := q.display } ∧
      p ≠ q ∧ entryCmp p q = .lt ∧ R p q ∧ R q p) := by
  intro rest
  induction rest with
  | nil =>
    intro entry1 m hm _ _
    exact Or.inl ⟨m, rfl, hm⟩
  | cons entry2 rest ih =>
    intro entry1 m hm hrest hpw
    rw [List.pairwise_cons] at hpw
    obtain ⟨hpw1, hpw2⟩ := hpw
    by_cases heq : entry2 = entry1
    · have step : checkEntryAgainst entry1 (entry2 :: rest) m =
          checkEntryAgainst entry1 rest m := by
        simp [checkEntryAgainst, heq]
      rcases ih entry1 m hm
          (fun e2 he2 hne => hrest e2 (List.mem_cons_of_mem _ he2) hne) hpw2 with
        ⟨m2, hrun, hj⟩ | ⟨p, q, hrun, hpq, hlt, hR1, hR2⟩
      · exact Or.inl ⟨m2, step.trans hrun, hj⟩
      · exact Or.inr ⟨p, q, step.trans hrun, hpq, hlt, hR1, hR2⟩
    · have hne : entry1 ≠ entry2 := fun h => heq h.symm
      have hR12 : R entry1 entry2 := hrest entry2 (List.mem_cons_self _ _) heq
      -- the running minimum passed on to the rest of the inner loop
      have hnext : ∀ e2 ∈ rest, e2 ≠ (canonKey entry1 entry2).1 →
          R (canonKey entry1 entry2).1 e2 := by
        rcases entryCmp_lt_or_gt hne with hlt | hgt
        · have hkey : canonKey entry1 entry2 = (entry1, entry2) := by
            unfold canonKey
            rw [if_neg (by simp [hlt])]
          rw [hkey]
          exact fun e2 he2 hne2 => hrest e2 (List.mem_cons_of_mem _ he2) hne2
        · have hkey : canonKey entry1 entry2 = (entry2, entry1) := by
            unfold canonKey
            rw [if_pos hgt]
          rw [hkey]
          exact fun e2 he2 hne2 => hpw1 e2 he2 hne2.symm
      cases hlook : lookupPair m (canonKey entry1 entry2) with
      | none =>
        have step : checkEntryAgainst entry1 (entry2 :: rest) m =
            checkEntryAgainst (canonKey entry1 entry2).1 rest
              ((canonKey entry1 entry2, canonDir entry1 entry2) :: m) := by
          simp [checkEntryAgainst, heq, hlook]
        have hm1 : justified R ((canonKey entry1 entry2, canonDir entry1 entry2) :: m) :=
          justified_insert R m entry1 entry2 hne hR12 hm
        rcases ih (canonKey entry1 entry2).1
            ((canonKey entry1 entry2, canonDir entry1 entry2) :: m) hm1 hnext hpw2 with
          ⟨m2, hrun, hj⟩ | ⟨p, q, hrun, hpq, hlt, hR1, hR2⟩
        · exact Or.inl ⟨m2, step.trans hrun, hj⟩
        · exact Or.inr ⟨p, q, step.trans hrun, hpq, hlt, hR1, hR2⟩
      | some o =>
        by_cases ho : o = canonDir entry1 entry2
        · have step : checkEntryAgainst entry1 (entry2 :: rest) m =
              checkEntryAgainst (canonKey entry1 entry2).1 rest m := by
            simp [checkEntryAgainst, heq, hlook, ho]
          rcases ih (canonKey entry1 entry2).1 m hm hnext hpw2 with
            ⟨m2, hrun, hj⟩ | ⟨p, q, hrun, hpq, hlt, hR1, hR2⟩
          · exact Or.inl ⟨m2, step.trans hrun, hj⟩
          · exact Or.inr ⟨p, q, step.trans hrun, hpq, hlt, hR1, hR2⟩
        · have step : checkEntryAgainst entry1 (entry2 :: rest) m = .error
              { precedence_1 := (canonKey entry1 entry2).1.display,
                precedence_2 := (canonKey entry1 entry2).2.display } := by
            simp [checkEntryAgainst, heq, hlook, ho]
          rcases entryCmp_lt_or_gt hne with hlt | hgt
          · have hkey : canonKey entry1 entry2 = (entry1, entry2) := by
              unfold canonKey
              rw [if_neg (by simp [hlt])]
            have hdir : canonDir entry1 entry2 = .gt := by
              unfold canonDir
              rw [if_neg (by simp [hlt])]
            rw [hkey] at hlook
            obtain ⟨hup, hdisj⟩ := hm entry1 entry2 o hlook
            have hR21 : R entry2 entry1 := by
              rcases hdisj with ⟨hgt2, _⟩ | ⟨_, h2⟩
              · exact absurd (hgt2.trans hdir.symm) ho
              · exact h2
            refine Or.inr ⟨entry1, entry2, ?_, hne, hlt, hR12, hR21⟩
            rw [step, hkey]
          · have hkey : canonKey entry1 entry2 = (entry2, entry1) := by
              unfold canonKey
              rw [if_pos hgt]
            have hdir : canonDir entry1 entry2 = .lt := by
              unfold canonDir
              rw [if_pos hgt]
            rw [hkey] at hlook
            obtain ⟨hup, hdisj⟩ := hm entry2 entry1 o hlook
            have hR21 : R entry2 entry1 := by
              rcases hdisj with ⟨_, h2⟩ | ⟨hlt2, _⟩
              · exact h2
              · exact absurd (hlt2.trans hdir.symm) ho
            refine Or.inr ⟨entry2, entry1, ?_, hne.symm,
              (entryCmp_gt_iff entry1 entry2).mp hgt, hR21, hR12⟩
            rw [step, hkey]

theorem checkPairsOfList_spec (R : PrecedenceEntry → PrecedenceEntry → Prop) :
    ∀ (l : List PrecedenceEntry) (m : PairMap), justified R m →
    l.Pairwise (fun a b => a ≠ b → R a b) →
    (∃ m2, checkPairsOfList l m = .ok m2 ∧ justified R m2) ∨
    (∃ p q, checkPairsOfList l m = .error
        { precedence_1 := p.display, precedence_2 := q.display } ∧
      p ≠ q ∧ entryCmp p q = .lt ∧ R p q ∧ R q p) := by
  intro l
  induction l with
  | nil =>
    intro m hm _
    exact Or.inl ⟨m, rfl, hm⟩
  | cons entry1 rest ih =>
    intro m hm hpw
    rw [List.pairwise_cons] at hpw
    obtain ⟨hhead, hrest_pw⟩ := hpw
    rcases checkEntryAgainst_spec R rest entry1 m hm
        (fun e2 he hne => hhead e2 he hne.symm) hrest_pw with
      ⟨m1, hrun1, hj1⟩ | ⟨p, q, hrun1, hpq, hlt, hR1, hR2⟩
    · have step : checkPairsOfList (entry1 :: rest) m = checkPairsOfList rest m1 := by
        simp [checkPairsOfList, hrun1]
      rcases ih m1 hj1 hrest_pw with
        ⟨m2, hrun2, hj2⟩ | ⟨p, q, hrun2, hpq, hlt, hR1, hR2⟩
      · exact Or.inl ⟨m2, step.trans hrun2, hj2⟩
      · exact Or.inr ⟨p, q, step.trans hrun2, hpq, hlt, hR1, hR2⟩
    · have step : checkPairsOfList (entry1 :: rest) m = .error
          { precedence_1 := p.display, precedence_2 := q.display } := by
        simp [checkPairsOfList, hrun1]
      exact Or.inr ⟨p, q, step, hpq, hlt, hR1, hR2⟩

theorem checkOrderings_spec (R : PrecedenceEntry → PrecedenceEntry → Prop) :
    ∀ (ls : List (List PrecedenceEntry)) (m : PairMap), justified R m →
    (∀ l ∈ ls, l.Pairwise (fun a b => a ≠ b → R a b)) →
    (∃ m2, checkOrderings ls m = .ok m2 ∧ justified R m2) ∨
    (∃ p q, checkOrderings ls m = .error
        { precedence_1 := p.display, precedence_2 := q.display } ∧
      p ≠ q ∧ entryCmp p q = .lt ∧ R p q ∧ R q p) := by
  intro ls
  induction ls with
  | nil =>
    intro m hm _
    exact Or.inl ⟨m, rfl, hm⟩
  | cons l ls ih =>
    intro m hm hls
    rcases checkPairsOfList_spec R l m hm (hls l (List.mem_cons_self _ _)) with
      ⟨m1, hrun1, hj1⟩ | ⟨p, q, hrun1, hpq, hlt, hR1, hR2⟩
    · have step : checkOrderings (l :: ls) m = checkOrderings ls m1 := by
        simp [checkOrderings, hrun1]
      rcases ih m1 hj1 (fun l2 hl2 => hls l2 (List.mem_cons_of_mem _ hl2)) with
        ⟨m2, hrun2, hj2⟩ | ⟨p, q, hrun2, hpq, hlt, hR1, hR2⟩
      · exact Or.inl ⟨m2, step.trans hrun2, hj2⟩
      · exact Or.inr ⟨p, q, step.trans hrun2, hpq, hlt, hR1, hR2⟩
    · have step : checkOrderings (l :: ls) m = .error
          { precedence_1 := p.display, precedence_2 := q.display } := by
        simp [checkOrderings, hrun1]
      exact Or.inr ⟨p, q, step, hpq, hlt, hR1, hR2⟩

theorem orderings_pairwise (g : InputGrammar) :
    ∀ l ∈ g.precedence_orderings,
      l.Pairwise (fun a b => a ≠ b → ordersBeforeIn g a b) := by
  intro l hl
  rw [List.pairwise_iff_forall_sublist]
  intro a b hs _
  exact ⟨l, hl, hs⟩

theorem ordering_check_ok (g : InputGrammar)
    (h : ∀ a b : PrecedenceEntry, a ≠ b →
      ordersBeforeIn g a b → ordersBeforeIn g b a → False) :
    ∃ m, checkOrderings g.precedence_orderings [] = .ok m ∧
      justified (ordersBeforeIn g) m := by
  rcases checkOrderings_spec (ordersBeforeIn g) g.precedence_orderings []
      (justified_nil _) (orderings_pairwise g) with
    ⟨m2, hrun, hj⟩ | ⟨p, q, _, hpq, _, hR1, hR2⟩
  · exact ⟨m2, hrun, hj⟩
  · exact absurd hR2 (fun h2 => h p q hpq hR1 h2)


theorem mem_pairsOf_iff : ∀ (l : List PrecedenceEntry) (a b : PrecedenceEntry),
    ((a, b) ∈ pairsOf l) ↔ List.Sublist [a, b] l
  | [], a, b => by simp [pairsOf]
  | x :: rest, a, b => by
    simp only [pairsOf, List.mem_append, List.mem_map]
    constructor
    · rintro (⟨y, hy, hxy⟩ | hmem)
      · injection hxy with hx hyb
        subst hx
        subst hyb
        exact List.Sublist.cons₂ _ (List.singleton_sublist.mpr hy)
      · exact List.Sublist.cons _ ((mem_pairsOf_iff rest a b).mp hmem)
    · intro hs
      rcases List.sublist_cons_iff.mp hs with h' | ⟨r, hr, hr'⟩
      · exact Or.inr ((mem_pairsOf_iff rest a b).mpr h')
      · injection hr with h1 h2
        subst h1
        subst h2
        exact Or.inl ⟨b, List.singleton_sublist.mp hr', rfl⟩

theorem no_conflict_of_check (g : InputGrammar) (h : grammarHasConflict g = false) :
    ∀ a b : PrecedenceEntry, a ≠ b →
      ordersBeforeIn g a b → ordersBeforeIn g b a → False := by
  intro a b hab h1 h2
  obtain ⟨l1, hl1, s1⟩ := h1
  obtain ⟨l2, hl2, s2⟩ := h2
  unfold grammarHasConflict at h
  rw [List.any_eq_false] at h
  have hA := h l1 hl1
  rw [Bool.not_eq_true, List.any_eq_false] at hA
  have hB := hA l2 hl2
  rw [Bool.not_eq_true, List.any_eq_false] at hB
  have hC := hB (a, b) ((mem_pairsOf_iff l1 a b).mpr s1)
  apply hC
  rw [Bool.and_eq_true]
  exact ⟨decide_eq_true hab, List.elem_iff.mpr ((mem_pairsOf_iff l2 b a).mpr s2)⟩

theorem contains_of_mem {l : List String} {n : String} (h : n ∈ l) :
    l.contains n = true := by
  simpa [List.contains] using List.elem_iff.mpr h

theorem mem_of_contains {l : List String} {n : String} (h : l.contains n = true) :
    n ∈ l := by
  have h2 : List.elem n l = true := h
  exact List.elem_iff.mp h2

theorem contains_eq_false_of_not_mem {l : List String} {n : String} (h : n ∉ l) :
    l.contains n = false := by
  cases hcb : l.contains n with
  | false => rfl
  | true => exact absurd (mem_of_contains hcb) h

mutual

theorem validate_eq (rule_name : String) (rule : Rule) (names : List String) :
    validate rule_name rule names =
      match (usedPrecedences rule).filter (fun n => !names.contains n) with
      | [] => .ok ()
      | n :: _ => .error (.undeclared { precedence := n, rule := rule_name }) := by
  cases rule with
  | blank => simp [validate, usedPrecedences]
  | string s => simp [validate, usedPrecedences]
  | pattern s => simp [validate, usedPrecedences]
  | namedSymbol s => simp [validate, usedPrecedences]
  | symbol s => simp [validate, usedPrecedences]
  | «repeat» r =>
    rw [show validate rule_name (.repeat r) names = validate rule_name r names from by
      simp [validate]]
    rw [show usedPrecedences (.repeat r) = usedPrecedences r from by
      simp [usedPrecedences]]
    exact validate_eq rule_name r names
  | seq es =>
    rw [show validate rule_name (.seq es) names = validateElements rule_name es names from by
      simp [validate]]
    rw [show usedPrecedences (.seq es) = usedPrecedencesList es from by
      simp [usedPrecedences]]
    exact validateElements_eq rule_name es names
  | choice es =>
    rw [show validate rule_name (.choice es) names =
        validateElements rule_name es names from by simp [validate]]
    rw [show usedPrecedences (.choice es) = usedPrecedencesList es from by
      simp [usedPrecedences]]
    exact validateElements_eq rule_name es names
  | metadata params r =>
    cases hp : params.precedence with
    | name n =>
      by_cases hmem : n ∈ names
      · have hcc := contains_of_mem hmem
        rw [show validate rule_name (.metadata params r) names =
            validate rule_name r names from by simp [validate, hp, hcc, hmem]]
        rw [show (usedPrecedences (.metadata params r)).filter
              (fun x => !names.contains x) =
            (usedPrecedences r).filter (fun x => !names.contains x) from by
          simp [usedPrecedences, hp, List.filter_cons, hcc, hmem]]
        exact validate_eq rule_name r names
      · have hcf := contains_eq_false_of_not_mem hmem
        rw [show validate rule_name (.metadata params r) names =
            .error (.undeclared { precedence := n, rule := rule_name }) from by
          simp [validate, hp, hcf, hmem]]
        rw [show (usedPrecedences (.metadata params r)).filter
              (fun x => !names.contains x) =
            n :: (usedPrecedences r).filter (fun x => !names.contains x) from by
          simp [usedPrecedences, hp, List.filter_cons, hcf, hmem]]
    | none =>
      rw [show validate rule_name (.metadata params r) names =
          validate rule_name r names from by simp [validate, hp]]
      rw [show usedPrecedences (.metadata params r) = usedPrecedences r from by
        simp [usedPrecedences, hp]]
      exact validate_eq rule_name r names
    | integer k =>
      rw [show validate rule_name (.metadata params r) names =
          validate rule_name r names from by simp [validate, hp]]
      rw [show usedPrecedences (.metadata params r) = usedPrecedences r from by
        simp [usedPrecedences, hp]]
      exact validate_eq rule_name r names

theorem validateElements_eq (rule_name : String) (elements : List Rule)
    (names : List String) :
    validateElements rule_name elements names =
      match (usedPrecedencesList elements).filter (fun n => !names.contains n) with
      | [] => .ok ()
      | n :: _ => .error (.undeclared { precedence := n, rule := rule_name }) := by
  cases elements with
  | nil => simp [validateElements, usedPrecedencesList]
  | cons e rest =>
    have hrec := validate_eq rule_name e names
    cases hf : (usedPrecedences e).filter (fun x => !names.contains x) with
    | nil =>
      have h1 : validate rule_name e names = .ok () := by rw [hrec, hf]
      rw [show validateElements rule_name (e :: rest) names =
          validateElements rule_name rest names from by simp [validateElements, h1]]
      rw [show (usedPrecedencesList (e :: rest)).filter (fun x => !names.contains x) =
          (usedPrecedencesList rest).filter (fun x => !names.contains x) from by
        simp only [usedPrecedencesList, List.filter_append, hf, List.nil_append]]
      exact validateElements_eq rule_name rest names
    | cons n ns =>
      have h1 : validate rule_name e names =
          .error (.undeclared { precedence := n, rule := rule_name }) := by rw [hrec, hf]
      rw [show validateElements rule_name (e :: rest) names =
          .error (.undeclared { precedence := n, rule := rule_name }) from by
        simp [validateElements, h1]]
      rw [show (usedPrecedencesList (e :: rest)).filter (fun x => !names.contains x) =
          n :: (ns ++ (usedPrecedencesList rest).filter (fun x => !names.contains x)) from by
        simp only [usedPrecedencesList, List.filter_append, hf, List.cons_append]]

end

theorem validateVariables_eq (vars : List Variable) (names : List String) :
    validateVariables vars names =
      match (vars.map (fun v =>
          ((usedPrecedences v.rule).filter (fun n => !names.contains n)).map
            (fun n => (n, v.name)))).flatten with
      | [] => .ok ()
      | (n, vn) :: _ => .error (.undeclared { precedence := n, rule := vn }) := by
  induction vars with
  | nil => simp [validateVariables]
  | cons v rest ih =>
    have hrec := validate_eq v.name v.rule names
    cases hf : (usedPrecedences v.rule).filter (fun x => !names.contains x) with
    | nil =>
      have h1 : validate v.name v.rule names = .ok () := by rw [hrec, hf]
      rw [show validateVariables (v :: rest) names = validateVariables rest names from by
        simp [validateVariables, h1]]
      rw [show ((v :: rest).map (fun v' =>
          ((usedPrecedences v'.rule).filter (fun n => !names.contains n)).map
            (fun n => (n, v'.name)))).flatten =
          (rest.map (fun v' =>
          ((usedPrecedences v'.rule).filter (fun n => !names.contains n)).map
            (fun n => (n, v'.name)))).flatten from by
        simp only [List.map_cons, List.flatten_cons, hf, List.map_nil, List.nil_append]]
      exact ih
    | cons n ns =>
      have h1 : validate v.name v.rule names =
          .error (.undeclared { precedence := n, rule := v.name }) := by rw [hrec, hf]
      rw [show validateVariables (v :: rest) names =
          .error (.undeclared { precedence := n, rule := v.name }) from by
        simp [validateVariables, h1]]
      rw [show ((v :: rest).map (fun v' =>
          ((usedPrecedences v'.rule).filter (fun n => !names.contains n)).map
            (fun n => (n, v'.name)))).flatten =
          (n, v.name) :: (ns.map (fun n' => (n', v.name)) ++
            (rest.map (fun v' =>
            ((usedPrecedences v'.rule).filter (fun n' => !names.contains n')).map
              (fun n' => (n', v'.name)))).flatten) from by
        simp only [List.map_cons, List.flatten_cons, hf, List.cons_append]]

theorem validateVariables_no_ordering (vars : List Variable) (names : List String)
    (e : ConflictingPrecedenceOrderingError) :
    validateVariables vars names ≠ .error (.ordering e) := by
  intro hcontra
  rw [validateVariables_eq] at hcontra
  cases hocc : (vars.map (fun v =>
      ((usedPrecedences v.rule).filter (fun n => !names.contains n)).map
        (fun n => (n, v.name)))).flatten with
  | nil =>
    rw [hocc] at hcontra
    simp at hcontra
  | cons hd tl =>
    obtain ⟨n, vn⟩ := hd
    rw [hocc] at hcontra
    simp at hcontra

theorem checkPairsOfList_aba (a b : PrecedenceEntry) (hab : a ≠ b) :
    ∀ m : PairMap, ∃ e, checkPairsOfList [a, b, a] m = .error e := by
  intro m
  have hba : ¬(b = a) := fun h => hab h.symm
  rcases entryCmp_lt_or_gt hab with hglt | hggt
  · have hkey : canonKey a b = (a, b) := by
      unfold canonKey
      rw [if_neg (by simp [hglt])]
    have hdir : canonDir a b = .gt := by
      unfold canonDir
      rw [if_neg (by simp [hglt])]
    have hkeyba : canonKey b a = (a, b) := (canonKey_symm a b hab).trans hkey
    have hdirba : canonDir b a = .lt := by
      unfold canonDir
      rw [if_pos ((entryCmp_gt_iff b a).mpr hglt)]
    cases hlook : lookupPair m (a, b) with
    | none =>
      have hrun1 : checkEntryAgainst a [b, a] m = .ok (((a, b), Ordering.gt) :: m) := by
        simp [checkEntryAgainst, hba, hkey, hdir, hlook]
      have hlook2 : lookupPair (((a, b), Ordering.gt) :: m) (a, b) = some Ordering.gt := by
        simp [lookupPair]
      have hrun2 : checkEntryAgainst b [a] (((a, b), Ordering.gt) :: m) =
          .error { precedence_1 := a.display, precedence_2 := b.display } := by
        simp [checkEntryAgainst, hab, hkeyba, hdirba, hlook2]
      exact ⟨{ precedence_1 := a.display, precedence_2 := b.display },
        by simp [checkPairsOfList, hrun1, hrun2]⟩
    | some o =>
      by_cases ho : o = Ordering.gt
      · have hrun1 : checkEntryAgainst a [b, a] m = .ok m := by
          simp [checkEntryAgainst, hba, hkey, hdir, hlook, ho]
        have hlook2 : lookupPair m (a, b) = some Ordering.gt := by
          rw [← ho]
          exact hlook
        have hrun2 : checkEntryAgainst b [a] m =
            .error { precedence_1 := a.display, precedence_2 := b.display } := by
          simp [checkEntryAgainst, hab, hkeyba, hdirba, hlook2]
        exact ⟨{ precedence_1 := a.display, precedence_2 := b.display },
          by simp [checkPairsOfList, hrun1, hrun2]⟩
      · have hrun1 : checkEntryAgainst a [b, a] m =
            .error { precedence_1 := a.display, precedence_2 := b.display } := by
          simp [checkEntryAgainst, hba, hkey, hdir, hlook, ho]
        exact ⟨{ precedence_1 := a.display, precedence_2 := b.display },
          by simp [checkPairsOfList, hrun1]⟩
  · have hkey : canonKey a b = (b, a) := by
      unfold canonKey
      rw [if_pos hggt]
    have hdir : canonDir a b = .lt := by
      unfold canonDir
      rw [if_pos hggt]
    have hkeyba : canonKey b a = (b, a) := by
      unfold canonKey
      rw [if_neg (by simp [(entryCmp_gt_iff a b).mp hggt])]
    have hdirba : canonDir b a = .gt := by
      unfold canonDir
      rw [if_neg (by simp [(entryCmp_gt_iff a b).mp hggt])]
    cases hlook : lookupPair m (b, a) with
    | none =>
      have hrun1 : checkEntryAgainst a [b, a] m =
          .error { precedence_1 := b.display, precedence_2 := a.display } := by
        simp [checkEntryAgainst, hba, hab, hkey, hdir, hkeyba, hdirba, hlook, lookupPair]
      exact ⟨{ precedence_1 := b.display, precedence_2 := a.display },
        by simp [checkPairsOfList, hrun1]⟩
    | some o =>
      by_cases ho : o = Ordering.lt
      · have hrun1 : checkEntryAgainst a [b, a] m =
            .error { precedence_1 := b.display, precedence_2 := a.display } := by
          simp [checkEntryAgainst, hba, hab, hkey, hdir, hkeyba, hdirba, hlook, ho]
        exact ⟨{ precedence_1 := b.display, precedence_2 := a.display },
          by simp [checkPairsOfList, hrun1]⟩
      · have hrun1 : checkEntryAgainst a [b, a] m =
            .error { precedence_1 := b.display, precedence_2 := a.display } := by
          simp [checkEntryAgainst, hba, hkey, hdir, hlook, ho]
        exact ⟨{ precedence_1 := b.display, precedence_2 := a.display },
          by simp [checkPairsOfList, hrun1]⟩

theorem checkOrderings_error_of_mem (l : List PrecedenceEntry)
    (hall : ∀ m : PairMap, ∃ e, checkPairsOfList l m = .error e) :
    ∀ (ls : List (List PrecedenceEntry)), l ∈ ls →
    ∀ m : PairMap, ∃ e, checkOrderings ls m = .error e := by
  intro ls
  induction ls with
  | nil => exact fun h => absurd h (List.not_mem_nil l)
  | cons l2 ls2 ih =>
    intro hmem m
    rcases List.mem_cons.mp hmem with rfl | hmem2
    · obtain ⟨e, he⟩ := hall m
      exact ⟨e, by simp [checkOrderings, he]⟩
    · cases hrun : checkPairsOfList l2 m with
      | error e => exact ⟨e, by simp [checkOrderings, hrun]⟩
      | ok m2 =>
        obtain ⟨e, he⟩ := ih hmem2 m2
        exact ⟨e, by simp [checkOrderings, hrun, he]⟩

/-- C1: `prepare_grammar` returns either the complete 4-tuple or exactly one
error wrapping the failing stage's error; the first stage to fail determines
the error and no partial output is returned.  Stated for every grammar and
every implementation of the seven modelled stages: each conjunct says that
when all earlier stages succeed and a stage fails, the result is exactly
that stage's error wrapped in the corresponding `PrepareGrammarError`
constructor. -/
theorem prepare_grammar_first_error_wins (impl : StageImpls) (g : InputGrammar) :
    (∀ e, validate_precedences g = .error e →
      prepare_grammar impl g = .error (.validatePrecedences e)) ∧
    (∀ e, validate_precedences g = .ok () → impl.intern_symbols g = .error e →
      prepare_grammar impl g = .error (.internSymbols e)) ∧
    (∀ ig e, validate_precedences g = .ok () → impl.intern_symbols g = .ok ig →
      impl.extract_tokens ig = .error e →
      prepare_grammar impl g = .error (.extractTokens e)) ∧
    (∀ ig sg lg e, validate_precedences g = .ok () → impl.intern_symbols g = .ok ig →
      impl.extract_tokens ig = .ok (sg, lg) →
      impl.flatten_grammar (impl.expand_repeats sg) = .error e →
      prepare_grammar impl g = .error (.flattenGrammar e)) ∧
    (∀ ig sg lg sg2 e, validate_precedences g = .ok () → impl.intern_symbols g = .ok ig →
      impl.extract_tokens ig = .ok (sg, lg) →
      impl.flatten_grammar (impl.expand_repeats sg) = .ok sg2 →
      impl.expand_tokens lg = .error e →
      prepare_grammar impl g = .error (.expandTokens e)) ∧
    (∀ ig sg lg sg2 lg2 sg3 am e, validate_precedences g = .ok () →
      impl.intern_symbols g = .ok ig →
      impl.extract_tokens ig = .ok (sg, lg) →
      impl.flatten_grammar (impl.expand_repeats sg) = .ok sg2 →
      impl.expand_tokens lg = .ok lg2 →
      impl.extract_default_aliases sg2 lg2 = (sg3, am) →
      impl.process_inlines sg3 lg2 = .error e →
      prepare_grammar impl g = .error (.processInlines e)) := by
  refine ⟨?_, ?_, ?_, ?_, ?_, ?_⟩
  · intro e h0
    simp [prepare_grammar, h0]
  · intro e h0 h1
    simp [prepare_grammar, h0, h1]
  · intro ig e h0 h1 h2
    simp [prepare_grammar, h0, h1, h2]
  · intro ig sg lg e h0 h1 h2 h3
    simp [prepare_grammar, h0, h1, h2, h3]
  · intro ig sg lg sg2 e h0 h1 h2 h3 h4
    simp [prepare_grammar, h0, h1, h2, h3, h4]
  · intro ig sg lg sg2 lg2 sg3 am e h0 h1 h2 h3 h4 h5 h6
    simp [prepare_grammar, h0, h1, h2, h3, h4, h5, h6]

/-- Witness for C1: with the trivial stage implementations and a grammar
whose precedence validation fails, `prepare_grammar` returns exactly the
wrapped validation error. -/
theorem prepare_grammar_first_error_wins_witness :
    prepare_grammar trivialStages conflictPairGrammar =
      .error (.validatePrecedences (.ordering
        { precedence_1 := "\x27a\x27", precedence_2 := "\x27b\x27" })) :=
  (prepare_grammar_first_error_wins trivialStages conflictPairGrammar).1
    (.ordering { precedence_1 := "\x27a\x27", precedence_2 := "\x27b\x27" }) (by decide)

/-- C2: if every named precedence used in any variable's rule tree appears
in some precedence-ordering list and no two co-occurring entries are
ordered both ways by the lists, then `validate_precedences` succeeds. -/
theorem validate_precedences_ok_of_consistent (g : InputGrammar)
    (h1 : ∀ v ∈ g.variables, ∀ n ∈ usedPrecedences v.rule, n ∈ precedenceNames g)
    (h2 : ∀ a b : PrecedenceEntry, a ≠ b →
      ordersBeforeIn g a b → ordersBeforeIn g b a → False) :
    validate_precedences g = .ok () := by
  obtain ⟨m, hrun, _⟩ := ordering_check_ok g h2
  have hocc : (g.variables.map (fun v =>
      ((usedPrecedences v.rule).filter (fun n => !(precedenceNames g).contains n)).map
        (fun n => (n, v.name)))).flatten = [] := by
    rw [List.flatten_eq_nil_iff]
    intro x hx
    rw [List.mem_map] at hx
    obtain ⟨v, hv, hvx⟩ := hx
    have hfil : (usedPrecedences v.rule).filter
        (fun n => !(precedenceNames g).contains n) = [] := by
      rw [List.filter_eq_nil_iff]
      intro n hn
      have hmem := h1 v hv n hn
      simp [hmem]
    rw [← hvx, hfil]
    simp
  have hvars : validateVariables g.variables (precedenceNames g) = .ok () := by
    rw [validateVariables_eq, hocc]
  simp [validate_precedences, hrun, hvars]

/-- Witness for C2: the consistent grammar passes validation. -/
theorem validate_precedences_ok_of_consistent_witness :
    validate_precedences consistentGrammar = .ok () :=
  validate_precedences_ok_of_consistent consistentGrammar (by decide)
    (no_conflict_of_check consistentGrammar (by decide))

/-- C3 counterexample: in the grammar `[[c, a, b], [b, c]]` the pair
`{b, c}` is ordered both ways (`c` before `b` in the first list, `b`
before `c` in the second), yet `validate_precedences` succeeds: the
`mem::swap` in the inner loop replaces the running `entry1` `c` by `a`
after the first comparison, so the occurrence of `c` before `b` is never
recorded.  This refutes both the claimed failure and the claimed error
fields. -/
theorem conflict_error_pair_cex :
    ordersBeforeIn swapPersistenceGrammar (.name "c") (.name "b") ∧
    ordersBeforeIn swapPersistenceGrammar (.name "b") (.name "c") ∧
    validate_precedences swapPersistenceGrammar = .ok () := by
  refine ⟨?_, ?_, ?_⟩ <;> decide

/-- C3 (amended): whenever `validate_precedences` fails with a
conflicting-precedence-ordering error, the error's two fields name a pair
of distinct entries genuinely ordered both ways by the lists, in canonical
(comparison) order — independent of which list comes first; a grammar
ordering a pair both ways need not fail (the running-minimum comparisons
may never record the pair), and when it does fail the reported pair need
not be the given one. -/
theorem conflict_error_names_canonical_pair (g : InputGrammar)
    (e : ConflictingPrecedenceOrderingError)
    (h : validate_precedences g = .error (.ordering e)) :
    ∃ p q, p ≠ q ∧ entryCmp p q = .lt ∧ ordersBeforeIn g p q ∧ ordersBeforeIn g q p ∧
      e = { precedence_1 := p.display, precedence_2 := q.display } := by
  cases hrun : checkOrderings g.precedence_orderings [] with
  | ok m =>
    have heq : validate_precedences g =
        validateVariables g.variables (precedenceNames g) := by
      simp [validate_precedences, hrun]
    rw [heq] at h
    exact absurd h (validateVariables_no_ordering _ _ e)
  | error e2 =>
    have heq : validate_precedences g = .error (.ordering e2) := by
      simp [validate_precedences, hrun]
    have he2 : e2 = e :=
      ValidatePrecedenceError.ordering.inj (Except.error.inj (heq.symm.trans h))
    subst he2
    rcases checkOrderings_spec (ordersBeforeIn g) g.precedence_orderings []
        (justified_nil _) (orderings_pairwise g) with
      ⟨m2, hok, _⟩ | ⟨p, q, herr, hpq, hlt, hR1, hR2⟩
    · rw [hok] at hrun
      exact Except.noConfusion hrun
    · have hfields : ({ precedence_1 := p.display, precedence_2 := q.display } :
          ConflictingPrecedenceOrderingError) = e2 :=
        Except.error.inj (herr.symm.trans hrun)
      exact ⟨p, q, hpq, hlt, hR1, hR2, hfields.symm⟩

/-- Witness for the amended C3. -/
theorem conflict_error_names_canonical_pair_witness :
    ∃ p q, p ≠ q ∧ entryCmp p q = .lt ∧ ordersBeforeIn conflictPairGrammar p q ∧
      ordersBeforeIn conflictPairGrammar q p ∧
      ({ precedence_1 := "\x27a\x27", precedence_2 := "\x27b\x27" } :
          ConflictingPrecedenceOrderingError) =
        { precedence_1 := p.display, precedence_2 := q.display } :=
  conflict_error_names_canonical_pair conflictPairGrammar
    { precedence_1 := "\x27a\x27", precedence_2 := "\x27b\x27" } (by decide)

/-- C4: on the concrete grammar with orderings `[[a, b], [b, c, d]]` and
rule `v2` using the undeclared precedence `omg`, validation fails and the
error displays exactly `Undeclared precedence 'omg' in rule 'v2'`. -/
theorem undeclared_precedence_concrete :
    validate_precedences undeclaredTestGrammar =
      .error (.undeclared { precedence := "omg", rule := "v2" }) ∧
    (ValidatePrecedenceError.undeclared
        { precedence := "omg", rule := "v2" }).display =
      "Undeclared precedence \x27omg\x27 in rule \x27v2\x27" := by
  refine ⟨?_, ?_⟩ <;> decide

/-- C5: on the concrete grammar with orderings `[[a, b], [b, c, a]]`,
validation fails and the error displays exactly
`Conflicting orderings for precedences 'a' and 'b'`. -/
theorem conflicting_order_concrete :
    validate_precedences conflictingTestGrammar =
      .error (.ordering { precedence_1 := "\x27a\x27", precedence_2 := "\x27b\x27" }) ∧
    (ValidatePrecedenceError.ordering
        { precedence_1 := "\x27a\x27", precedence_2 := "\x27b\x27" }).display =
      "Conflicting orderings for precedences \x27a\x27 and \x27b\x27" := by
  refine ⟨?_, ?_⟩ <;> decide

/-- C6: whenever `validate_precedences` reports an undeclared-precedence
error, the reported (precedence, rule) pair is the first undeclared
occurrence in variable-declaration order and tree pre-order. -/
theorem undeclared_error_is_first_occurrence (g : InputGrammar)
    (e : UndeclaredPrecedenceError)
    (h : validate_precedences g = .error (.undeclared e)) :
    (undeclaredOccurrences g).head? = some (e.precedence, e.rule) := by
  cases hrun : checkOrderings g.precedence_orderings [] with
  | error e2 =>
    have hv : validate_precedences g = .error (.ordering e2) := by
      simp [validate_precedences, hrun]
    have := hv.symm.trans h
    simp at this
  | ok m =>
    have hv : validateVariables g.variables (precedenceNames g) =
        .error (.undeclared e) := by
      have heq : validate_precedences g =
          validateVariables g.variables (precedenceNames g) := by
        simp [validate_precedences, hrun]
      rw [← heq]
      exact h
    rw [validateVariables_eq] at hv
    cases hocc : (g.variables.map (fun v =>
        ((usedPrecedences v.rule).filter
          (fun n => !(precedenceNames g).contains n)).map
          (fun n => (n, v.name)))).flatten with
    | nil =>
      rw [hocc] at hv
      simp at hv
    | cons hd tl =>
      obtain ⟨n, vn⟩ := hd
      rw [hocc] at hv
      simp only [] at hv
      have hu : undeclaredOccurrences g = (n, vn) :: tl := hocc
      rw [hu]
      have hne : ({ precedence := n, rule := vn } : UndeclaredPrecedenceError) = e := by
        have := Except.error.inj hv
        exact ValidatePrecedenceError.undeclared.inj this
      rw [← hne]
      simp

/-- Witness for C6: on the concrete undeclared-precedence grammar, the
first occurrence is `("omg", "v2")`. -/
theorem undeclared_error_is_first_occurrence_witness :
    (undeclaredOccurrences undeclaredTestGrammar).head? = some ("omg", "v2") :=
  undeclared_error_is_first_occurrence undeclaredTestGrammar
    { precedence := "omg", rule := "v2" } (by decide)

/-- C7: when no pair of distinct entries is ordered both ways (repeated
agreement allowed), the conflicting-ordering check succeeds and its pair
map never records a self-pair, and `validate_precedences` never returns a
conflicting-ordering error. -/
theorem consistent_orderings_no_conflict_error (g : InputGrammar)
    (h : ∀ a b : PrecedenceEntry, a ≠ b →
      ordersBeforeIn g a b → ordersBeforeIn g b a → False) :
    (∃ m, checkOrderings g.precedence_orderings [] = .ok m ∧
      ∀ e : PrecedenceEntry, lookupPair m (e, e) = Option.none) ∧
    ∀ e, validate_precedences g ≠ .error (.ordering e) := by
  obtain ⟨m, hrun, hj⟩ := ordering_check_ok g h
  refine ⟨⟨m, hrun, ?_⟩, ?_⟩
  · intro e
    cases hl : lookupPair m (e, e) with
    | none => rfl
    | some o => exact absurd rfl (hj e e o hl).1
  · intro e hcontra
    have heq : validate_precedences g =
        validateVariables g.variables (precedenceNames g) := by
      simp [validate_precedences, hrun]
    rw [heq, validateVariables_eq] at hcontra
    cases hocc : (g.variables.map (fun v =>
        ((usedPrecedences v.rule).filter
          (fun n => !(precedenceNames g).contains n)).map
          (fun n => (n, v.name)))).flatten with
    | nil =>
      rw [hocc] at hcontra
      simp at hcontra
    | cons hd tl =>
      obtain ⟨n, vn⟩ := hd
      rw [hocc] at hcontra
      simp at hcontra

/-- Witness for C7: the grammar repeating `[a, b]` in several lists (one of
them with an equal-entry pair) passes the check with a self-pair-free map
and never produces a conflicting-ordering error. -/
theorem consistent_orderings_no_conflict_error_witness :
    (∃ m, checkOrderings repeatedAgreementGrammar.precedence_orderings [] = .ok m ∧
      ∀ e : PrecedenceEntry, lookupPair m (e, e) = Option.none) ∧
    ∀ e, validate_precedences repeatedAgreementGrammar ≠ .error (.ordering e) :=
  consistent_orderings_no_conflict_error repeatedAgreementGrammar
    (no_conflict_of_check repeatedAgreementGrammar (by decide))

/-- C8: the repeat expander and the default alias extractor are total
functions, so when the five fallible stages succeed `prepare_grammar`
succeeds — no error can originate in those two stages. -/
theorem infallible_stages_cannot_fail (impl : StageImpls) (g : InputGrammar)
    (ig : InternedGrammar) (sg : ExtractedSyntaxGrammar)
    (lg : ExtractedLexicalGrammar) (sg2 : SyntaxGrammar) (lg2 : LexicalGrammar)
    (sg3 : SyntaxGrammar) (am : AliasMap) (inl : InlinedProductionMap)
    (h0 : validate_precedences g = .ok ())
    (h1 : impl.intern_symbols g = .ok ig)
    (h2 : impl.extract_tokens ig = .ok (sg, lg))
    (h3 : impl.flatten_grammar (impl.expand_repeats sg) = .ok sg2)
    (h4 : impl.expand_tokens lg = .ok lg2)
    (h5 : impl.extract_default_aliases sg2 lg2 = (sg3, am))
    (h6 : impl.process_inlines sg3 lg2 = .ok inl) :
    prepare_grammar impl g = .ok (sg3, lg2, inl, am) := by
  simp [prepare_grammar, h0, h1, h2, h3, h4, h5, h6]

/-- Witness for C8: the trivial stage implementations succeed on the empty
grammar and the pipeline returns the full 4-tuple. -/
theorem infallible_stages_cannot_fail_witness :
    prepare_grammar trivialStages emptyGrammar = .ok ({}, {}, {}, ([] : AliasMap)) :=
  infallible_stages_cannot_fail trivialStages emptyGrammar {} {} {} {} {} {} [] {}
    (by decide) rfl rfl rfl rfl rfl rfl

/-- C9 counterexample: the swap-persistence grammar orders `{b, c}` both
ways and uses the undeclared precedence `omg`, yet `validate_precedences`
returns the undeclared error: the pairs loop never records the conflict,
passes, and the undeclared check then runs. -/
theorem ordering_error_priority_cex :
    ordersBeforeIn swapPersistenceUndeclaredGrammar (.name "c") (.name "b") ∧
    ordersBeforeIn swapPersistenceUndeclaredGrammar (.name "b") (.name "c") ∧
    ("omg", "v1") ∈ undeclaredOccurrences swapPersistenceUndeclaredGrammar ∧
    validate_precedences swapPersistenceUndeclaredGrammar =
      .error (.undeclared { precedence := "omg", rule := "v1" }) := by
  refine ⟨?_, ?_, ?_, ?_⟩ <;> decide

/-- C9 (amended): the conflicting-ordering check runs over all ordering
lists before the undeclared-precedence check visits any variable:
whenever the ordering check reports a conflict the returned error is the
conflicting-ordering error, and an undeclared error is returned only when
the ordering check has passed — but a pair ordered both ways need not be
detected by that check, so a grammar with both defects may still return
the undeclared error. -/
theorem ordering_error_priority (g : InputGrammar) :
    (∀ e, checkOrderings g.precedence_orderings [] = .error e →
      validate_precedences g = .error (.ordering e)) ∧
    (∀ e, validate_precedences g = .error (.undeclared e) →
      ∃ m, checkOrderings g.precedence_orderings [] = .ok m) := by
  constructor
  · intro e he
    simp [validate_precedences, he]
  · intro e he
    cases hrun : checkOrderings g.precedence_orderings [] with
    | ok m => exact ⟨m, rfl⟩
    | error e2 =>
      have heq : validate_precedences g = .error (.ordering e2) := by
        simp [validate_precedences, hrun]
      have := heq.symm.trans he
      simp at this

/-- Witness for C9: on a grammar whose ordering check does fail, the
returned error is the conflicting-ordering error even though an
undeclared precedence is also present. -/
theorem ordering_error_priority_witness :
    validate_precedences conflictAndUndeclaredGrammar =
      .error (.ordering { precedence_1 := "\x27a\x27", precedence_2 := "\x27b\x27" }) :=
  (ordering_error_priority conflictAndUndeclaredGrammar).1
    { precedence_1 := "\x27a\x27", precedence_2 := "\x27b\x27" } (by decide)

/-- C10 counterexample: the single list `[c, b, a, c]` orders `{b, c}` both
ways (and `{a, c}` too), yet `validate_precedences` succeeds: the running
minimum records only the consistent keys `(b, c)`, `(a, b)` and
`(a, c)`. -/
theorem single_list_conflict_cex :
    [PrecedenceEntry.name "c", .name "b", .name "a", .name "c"] ∈
      singleListBothWaysGrammar.precedence_orderings ∧
    List.Sublist [PrecedenceEntry.name "c", .name "b"]
      [PrecedenceEntry.name "c", .name "b", .name "a", .name "c"] ∧
    List.Sublist [PrecedenceEntry.name "b", .name "c"]
      [PrecedenceEntry.name "c", .name "b", .name "a", .name "c"] ∧
    validate_precedences singleListBothWaysGrammar = .ok () := by
  refine ⟨?_, ?_, ?_, ?_⟩ <;> decide

/-- C10 (amended): a conflict inside one single declaration list can be
detected with no second list required: any list of the shape `[a, b, a]`
(the contradicting occurrence adjacent to the pair's first comparison, so
the running minimum still holds a member of the pair) makes
`validate_precedences` fail with a conflicting-ordering error — but not
every list ordering a pair both ways fails. -/
theorem single_list_conflict (g : InputGrammar) (a b : PrecedenceEntry)
    (hab : a ≠ b) (hl : [a, b, a] ∈ g.precedence_orderings) :
    ∃ e, validate_precedences g = .error (.ordering e) := by
  obtain ⟨e, he⟩ := checkOrderings_error_of_mem [a, b, a]
    (checkPairsOfList_aba a b hab) g.precedence_orderings hl []
  exact ⟨e, by simp [validate_precedences, he]⟩

/-- Witness for C10: the single list `[a, b, a]` fails on its own. -/
theorem single_list_conflict_witness :
    ∃ e, validate_precedences singleListConflictGrammar = .error (.ordering e) :=
  single_list_conflict singleListConflictGrammar (.name "a") (.name "b")
    (by decide) (by decide)

end TreeSitter
